import Mathlib

/-!
Verification development for the Gesture-Air-Drop repository.

The embedding models, from the Python sources:
  - SecurityHandler.py : the AES-256-GCM chunk cipher and its wire framing,
  - DeviceDiscovery.py : the discovery listener step, the peer table and pruning,
  - FileReceiver.py    : the transfer-receiving state machine,
  - FileSender.py      : the transfer header and frame layout (used to state
    receiver theorems).

Bytes are lists of naturals (each byte a value below 256 where the wire format
depends on it).  The AES block-level primitive lives in an external library, so
the GCM mode is modelled structurally: a counter-mode keystream XORed into the
plaintext plus an authentication tag, both supplied as function parameters;
every theorem holds for an arbitrary keystream (of the right length) and an
arbitrary tag function, which is exactly what the framing and receiving code
relies on.  Wall-clock instants (Python time.time()) are rationals.
-/

/-- A byte string: list of byte values. -/
abbrev Bytes := List Nat

/-- Big-endian 4-byte encoding of a natural number, as produced by
Python struct.pack with format !I (defined for values below two to the 32). -/
def u32be (n : Nat) : Bytes :=
  [n / 2 ^ 24 % 256, n / 2 ^ 16 % 256, n / 2 ^ 8 % 256, n % 256]

/-- Big-endian 8-byte encoding of a natural number, as produced by
Python struct.pack with format !Q (defined for values below two to the 64). -/
def u64be (n : Nat) : Bytes :=
  [n / 2 ^ 56 % 256, n / 2 ^ 48 % 256, n / 2 ^ 40 % 256, n / 2 ^ 32 % 256,
   n / 2 ^ 24 % 256, n / 2 ^ 16 % 256, n / 2 ^ 8 % 256, n % 256]

/-- Big-endian decoding of a byte string, as done by Python struct.unpack
with formats !I and !Q on a buffer of the right size. -/
def beDecode (bs : Bytes) : Nat :=
  bs.foldl (fun acc b => acc * 256 + b) 0

/-- XOR of two byte strings, pointwise, truncated to the shorter one — the
byte-level effect of the counter-mode layer of GCM. -/
def xorBytes (a b : Bytes) : Bytes :=
  List.zipWith (fun x y => x ^^^ y) a b

namespace SecurityHandler

/-- Errors raised by the cipher model: the key-length check in the constructor
(Python ValueError) and the GCM tag-verification failure (cryptography
InvalidTag). -/
inductive CryptoError where
  | invalidKeyLength
  | authenticationFailure
deriving DecidableEq, Repr

/-- SecurityHandler.__init__ from SecurityHandler.py.  The caller-supplied key
is optional; Python evaluates key or os.urandom(32), so a None key AND an
empty (falsy) key are both replaced by the fresh random 32-byte string fresh,
and only then is the 32-byte length check applied.  Returns the key the
handler will use, or the error the constructor raises. -/
def init (key : Option Bytes) (fresh : Bytes) : Except CryptoError Bytes :=
  let k := match key with
    | none => fresh
    | some k => if k.isEmpty then fresh else k
  if k.length ≠ 32 then .error .invalidKeyLength else .ok k

/-- SecurityHandler.encrypt_chunk.  The fresh random 96-bit IV is passed in as
iv (the source draws it from os.urandom(12)); ks is the AES-CTR keystream of
the underlying library (ks key iv n = the n keystream bytes for this key and
IV) and tagOf its GCM tag function.  Returns (iv, ciphertext, tag) exactly as
the source does. -/
def encrypt_chunk (ks : Bytes → Bytes → Nat → Bytes)
    (tagOf : Bytes → Bytes → Bytes → Bytes)
    (key iv plaintext : Bytes) : Bytes × Bytes × Bytes :=
  let ciphertext := xorBytes plaintext (ks key iv plaintext.length)
  (iv, ciphertext, tagOf key iv ciphertext)

/-- SecurityHandler.decrypt_chunk.  Verifies the GCM tag and either returns
the plaintext or raises InvalidTag (authenticationFailure); on failure no
plaintext is produced. -/
def decrypt_chunk (ks : Bytes → Bytes → Nat → Bytes)
    (tagOf : Bytes → Bytes → Bytes → Bytes)
    (key iv ciphertext tag : Bytes) : Except CryptoError Bytes :=
  if tagOf key iv ciphertext = tag then
    .ok (xorBytes ciphertext (ks key iv ciphertext.length))
  else
    .error .authenticationFailure

/-- SecurityHandler.pack_encrypted_chunk: the frame layout
[4-byte iv_len][iv][4-byte tag_len][tag][4-byte data_len][data], every length
big-endian.  Defined on field lengths below two to the 32 (struct.pack !I
raises beyond that; the theorems carry that bound as a hypothesis). -/
def pack_encrypted_chunk (iv ciphertext tag : Bytes) : Bytes :=
  u32be iv.length ++ iv ++ u32be tag.length ++ tag ++ u32be ciphertext.length ++ ciphertext

/-- Errors of the unpacking step: struct.unpack_from raises when fewer than
4 bytes remain at a length field. -/
inductive UnpackError where
  | shortBuffer
deriving DecidableEq, Repr

/-- SecurityHandler.unpack_encrypted_chunk.  Reads the three length-prefixed
fields in order iv, tag, ciphertext and returns the tuple (iv, ciphertext,
tag) as the source does.  A length read off the end of the buffer raises
(struct.error); the data slices themselves silently truncate, as Python
slicing does. -/
def unpack_encrypted_chunk (data : Bytes) : Except UnpackError (Bytes × Bytes × Bytes) :=
  if 4 ≤ data.length then
    let ivLen := beDecode (data.take 4)
    let rest₁ := data.drop 4
    let iv := rest₁.take ivLen
    let rest₂ := rest₁.drop ivLen
    if 4 ≤ rest₂.length then
      let tagLen := beDecode (rest₂.take 4)
      let rest₃ := rest₂.drop 4
      let tag := rest₃.take tagLen
      let rest₄ := rest₃.drop tagLen
      if 4 ≤ rest₄.length then
        let dataLen := beDecode (rest₄.take 4)
        let rest₅ := rest₄.drop 4
        .ok (iv, rest₅.take dataLen, tag)
      else .error .shortBuffer
    else .error .shortBuffer
  else .error .shortBuffer

end SecurityHandler

namespace DeviceDiscovery

/-- A Python value as produced by pickle.loads on a discovery datagram.  The
source decodes every payload with pickle, a general-purpose object
deserializer, so the decoded value is an arbitrary Python object; the listener
step below receives it already decoded.  Strings, integers and string-keyed
dictionaries cover every payload the claims exercise. -/
inductive PyVal where
  | pyStr (s : String)
  | pyInt (n : Int)
  | pyDict (entries : List (String × PyVal))

/-- The outcome of pickle.loads on one datagram payload: a decoded value, an
exception of class pickle.PickleError, or any other exception (for example
EOFError, which pickle.loads raises on a truncated or empty payload and which
is NOT a PickleError). -/
inductive DatagramOutcome where
  | ok (v : PyVal)
  | pickleError
  | otherDecodeError

/-- The peer table self.devices of DeviceDiscovery: a Python dict from sender
IP to (name, last_seen).  The stored name is whatever object the payload
carried under the key name; last_seen is a time.time() instant. -/
abbrev PeerTable := List (String × PyVal × Rat)

/-- Python dict assignment d[k] = v: replace the value in place if the key is
present (dict keys are unique), otherwise append the new binding. -/
def dictSet {α : Type} : List (String × α) → String → α → List (String × α)
  | [], k, v => [(k, v)]
  | e :: rest, k, v => if e.1 = k then (k, v) :: rest else e :: dictSet rest k v

/-- Python dict lookup d[k] as an Option (none models KeyError). -/
def dictGet {α : Type} (l : List (String × α)) (k : String) : Option α :=
  (l.find? (fun e => e.1 == k)).map (fun e => e.2)

/-- Python dict deletion del d[k]. -/
def dictDel {α : Type} (l : List (String × α)) (k : String) : List (String × α) :=
  l.filter (fun e => e.1 != k)

/-- Result of handling one datagram inside the while-loop of
DeviceDiscovery._listen_for_devices: either the loop goes on to the next
recvfrom with an updated table, or it breaks out and the listener thread
terminates. -/
inductive StepResult where
  | nextIter (devices : PeerTable)
  | halt (devices : PeerTable)

/-- The peer table carried by either step outcome. -/
def StepResult.devices : StepResult → PeerTable
  | .nextIter d => d
  | .halt d => d

/-- One iteration of DeviceDiscovery._listen_for_devices on a received
datagram (source address src, payload decoded as payload, at time now, with
the local outbound address localIp as returned by _get_local_ip).  Mirrors
the source: pickle decoding errors of class PickleError and a missing name
key (KeyError) are swallowed and the loop continues; any other exception —
a payload that is not a dict (TypeError on the subscript) or a payload
pickle.loads rejects with a non-PickleError such as EOFError — falls into the
generic handler, which prints and breaks out of the loop. -/
def listen_for_devices_step (localIp : String) (now : Rat) (devices : PeerTable)
    (src : String) (payload : DatagramOutcome) : StepResult :=
  match payload with
  | .ok v =>
    if src ≠ localIp then
      match v with
      | .pyDict entries =>
        match dictGet entries "name" with
        | some nm => .nextIter (dictSet devices src (nm, now))
        | none => .nextIter devices
      | _ => .halt devices
    else .nextIter devices
  | .pickleError => .nextIter devices
  | .otherDecodeError => .halt devices

/-- DeviceDiscovery._prune_old_devices: collect the keys whose records are
older than timeout seconds, then delete each of them from the table. -/
def prune_old_devices (now : Rat) (timeout : Rat) (devices : PeerTable) : PeerTable :=
  let expired := (devices.filter (fun e => decide (now - e.2.2 > timeout))).map (fun e => e.1)
  expired.foldl (fun t ip => dictDel t ip) devices

/-- DeviceDiscovery.get_available_devices: prune with the default 30-second
timeout (a side effect on self.devices), then list (ip, name) pairs.  Returns
the listing together with the mutated table. -/
def get_available_devices (now : Rat) (devices : PeerTable) :
    List (String × PyVal) × PeerTable :=
  let pruned := prune_old_devices now 30 devices
  (pruned.map (fun e => (e.1, e.2.1)), pruned)

/-- The beacon payload DeviceDiscovery._broadcast_presence pickles and sends:
the dictionary with the two fields name and port. -/
def broadcast_message (deviceName : String) (servicePort : Int) : PyVal :=
  .pyDict [("name", .pyStr deviceName), ("port", .pyInt servicePort)]

/-- Modelled from the spec (sections 6 and 9, the encoding itself is absent
from the source): a decoded payload is a valid discovery beacon exactly when
it is the fixed two-field record with a text name and an integer port. -/
def validBeacon : PyVal → Bool
  | .pyDict [(k₁, .pyStr _), (k₂, .pyInt _)] => k₁ == "name" && k₂ == "port"
  | _ => false

/-- The peer tables reachable by the discovery service with local outbound
address localIp: the table starts empty, and is then mutated only by listener
iterations (arbitrary datagrams at arbitrary times) and by pruning with the
default 30-second timeout (the only call site, get_available_devices, uses
the default). -/
inductive Reachable (localIp : String) : PeerTable → Prop
  | init : Reachable localIp []
  | listen (now : Rat) (src : String) (payload : DatagramOutcome) (t : PeerTable) :
      Reachable localIp t →
      Reachable localIp (listen_for_devices_step localIp now t src payload).devices
  | prune (now : Rat) (t : PeerTable) :
      Reachable localIp t →
      Reachable localIp (prune_old_devices now 30 t)

end DeviceDiscovery

namespace FileSender

/-- FileSender._send_metadata: the packed transfer header
[u32 filenameLen][filename][u64 fileSize][u32 encryptedFlag], with the flag
1 when a SecurityHandler is set and 0 otherwise. -/
def send_metadata (filename : Bytes) (fileSize : Nat) (encrypted : Bool) : Bytes :=
  u32be filename.length ++ filename ++ u64be fileSize ++ u32be (if encrypted then 1 else 0)

/-- The bytes FileSender.send_file writes for one chunk on the encrypted
path: encrypt_chunk followed by the inlined [len iv][iv][len tag][tag]
[len ct][ct] packing (identical to pack_encrypted_chunk). -/
def send_chunk (ks : Bytes → Bytes → Nat → Bytes)
    (tagOf : Bytes → Bytes → Bytes → Bytes)
    (key iv chunk : Bytes) : Bytes :=
  let r := SecurityHandler.encrypt_chunk ks tagOf key iv chunk
  SecurityHandler.pack_encrypted_chunk r.1 r.2.1 r.2.2

/-- The whole encrypted chunk stream for a list of (iv, plaintext chunk)
pairs, as produced by the sender loop. -/
def send_chunks (ks : Bytes → Bytes → Nat → Bytes)
    (tagOf : Bytes → Bytes → Bytes → Bytes)
    (key : Bytes) (ivs chunks : List Bytes) : Bytes :=
  ((List.zip ivs chunks).map (fun p => send_chunk ks tagOf key p.1 p.2)).flatten

end FileSender

namespace FileReceiver

/-- Outcome of FileReceiver.receive_file.  success carries the saved path
(the filename bytes taken from the header) and the bytes written to the
output file; failure models the except-branch (the source prints and returns
the empty string) with the bytes already written — they stay on disk.
outOfFuel is the modelling artifact for runs that exhaust the fuel bound:
the corresponding source runs block forever on the closed socket (the plain
branch keeps appending empty reads), so no claim about returned results is
affected. -/
inductive RecvOutcome where
  | success (savePath : Bytes) (written : Bytes)
  | failure (written : Bytes)
  | outOfFuel (written : Bytes)
deriving DecidableEq, Repr

/-- FileReceiver._receive_exact over the remaining stream bytes: loops recv
until exactly n bytes accumulate; if the stream ends first, recv returns an
empty packet and the helper raises ConnectionError (none). -/
def receive_exact (n : Nat) (stream : Bytes) : Option (Bytes × Bytes) :=
  if n ≤ stream.length then some (stream.take n, stream.drop n) else none

/-- The chunk-receiving while-loop of FileReceiver.receive_file, over the
remaining stream.  On the encrypted path each iteration reads the three
length-prefixed fields with _receive_exact and decrypts; a ConnectionError or
an InvalidTag propagates to the except-branch, i.e. the run fails with the
bytes written so far.  On the plain path one recv yields at most 4096 bytes
— how many is up to the peer and the transport, so the successive recv
yields are an explicit schedule argument (capped by the buffer size and by
the bytes remaining, as a real recv is).  Fuel bounds the recursion; every
encrypted iteration consumes at least the 12 length bytes of its frame, so
fuel exceeding the stream length never runs out on the encrypted path. -/
def receive_loop (ks : Bytes → Bytes → Nat → Bytes)
    (tagOf : Bytes → Bytes → Bytes → Bytes) (key : Bytes)
    (encrypted : Bool) (fileSize : Nat) (savePath : Bytes) :
    Nat → Bytes → List Nat → Nat → Bytes → RecvOutcome
  | 0, _, _, _, written => .outOfFuel written
  | fuel + 1, stream, sched, total, written =>
    if total < fileSize then
      if encrypted then
        match receive_exact 4 stream with
        | none => .failure written
        | some (lenB₁, s₁) =>
          match receive_exact (beDecode lenB₁) s₁ with
          | none => .failure written
          | some (iv, s₂) =>
            match receive_exact 4 s₂ with
            | none => .failure written
            | some (lenB₂, s₃) =>
              match receive_exact (beDecode lenB₂) s₃ with
              | none => .failure written
              | some (tag, s₄) =>
                match receive_exact 4 s₄ with
                | none => .failure written
                | some (lenB₃, s₅) =>
                  match receive_exact (beDecode lenB₃) s₅ with
                  | none => .failure written
                  | some (ct, s₆) =>
                    match SecurityHandler.decrypt_chunk ks tagOf key iv ct tag with
                    | .error _ => .failure written
                    | .ok pt =>
                      receive_loop ks tagOf key encrypted fileSize savePath
                        fuel s₆ sched (total + pt.length) (written ++ pt)
      else
        let amt := min (min (sched.headD 0) 4096) stream.length
        let pt := stream.take amt
        receive_loop ks tagOf key encrypted fileSize savePath
          fuel (stream.drop amt) sched.tail (total + pt.length) (written ++ pt)
    else .success savePath written

/-- FileReceiver.receive_file over the byte stream the connection delivers
(followed by end of stream).  Parses the header with four exact reads, then
runs the chunk loop until fileSize plaintext bytes are written.  A header
read failing raises ConnectionError before the output file is opened, so
nothing is written.  The UTF-8 decode of the filename and the progress
callback are not modelled: no claim depends on them, and the callback only
observes the transfer. -/
def receive_file (ks : Bytes → Bytes → Nat → Bytes)
    (tagOf : Bytes → Bytes → Bytes → Bytes) (key : Bytes)
    (sched : List Nat) (stream : Bytes) : RecvOutcome :=
  match receive_exact 4 stream with
  | none => .failure []
  | some (h₁, s₁) =>
    match receive_exact (beDecode h₁) s₁ with
    | none => .failure []
    | some (filename, s₂) =>
      match receive_exact 8 s₂ with
      | none => .failure []
      | some (h₂, s₃) =>
        match receive_exact 4 s₃ with
        | none => .failure []
        | some (h₃, s₄) =>
          receive_loop ks tagOf key (decide (beDecode h₃ ≠ 0)) (beDecode h₂) filename
            (s₄.length + 1) s₄ sched 0 []

end FileReceiver

theorem beDecode_u32be (n : Nat) (h : n < 2 ^ 32) : beDecode (u32be n) = n := by
  simp only [u32be, beDecode, List.foldl]
  omega

theorem beDecode_u64be (n : Nat) (h : n < 2 ^ 64) : beDecode (u64be n) = n := by
  simp only [u64be, beDecode, List.foldl]
  omega

theorem u32be_length (n : Nat) : (u32be n).length = 4 := rfl

theorem u64be_length (n : Nat) : (u64be n).length = 8 := rfl

theorem xorBytes_length (a b : Bytes) :
    (xorBytes a b).length = min a.length b.length := by
  simp [xorBytes]

theorem xorBytes_xorBytes_cancel (a b : Bytes) (h : a.length ≤ b.length) :
    xorBytes (xorBytes a b) b = a := by
  induction a generalizing b with
  | nil => simp [xorBytes]
  | cons x xs ih =>
    cases b with
    | nil => simp at h
    | cons y ys =>
      simp only [List.length_cons] at h
      simp only [xorBytes, List.zipWith] at *
      refine congrArg₂ _ ?_ (ih ys (by omega))
      exact Nat.xor_cancel_right y x

namespace SecurityHandler

theorem unpack_pack (iv ct tag : Bytes)
    (hiv : iv.length < 2 ^ 32) (htag : tag.length < 2 ^ 32) (hct : ct.length < 2 ^ 32) :
    unpack_encrypted_chunk (pack_encrypted_chunk iv ct tag) = .ok (iv, ct, tag) := by
  simp only [unpack_encrypted_chunk, pack_encrypted_chunk, List.append_assoc]
  rw [List.take_left' (u32be_length _), List.drop_left' (u32be_length _)]
  rw [beDecode_u32be _ hiv]
  rw [List.take_left, List.drop_left]
  rw [List.take_left' (u32be_length _), List.drop_left' (u32be_length _)]
  rw [beDecode_u32be _ htag]
  rw [List.take_left, List.drop_left]
  rw [List.take_left' (u32be_length _), List.drop_left' (u32be_length _)]
  rw [beDecode_u32be _ hct]
  rw [List.take_length]
  simp [u32be_length]

end SecurityHandler

/-- C4: for all byte strings iv, tag and ciphertext whose lengths fit the
4-byte length fields, the frame lays the fields out in the fixed order iv,
tag, ciphertext, each preceded by its own 4-byte big-endian length, and
unpacking the packed frame returns exactly the same triple. -/
theorem C4_frame_roundtrip (iv tag ct : Bytes)
    (hiv : iv.length < 2 ^ 32) (htag : tag.length < 2 ^ 32) (hct : ct.length < 2 ^ 32) :
    SecurityHandler.pack_encrypted_chunk iv ct tag
      = u32be iv.length ++ iv ++ u32be tag.length ++ tag ++ u32be ct.length ++ ct
    ∧ SecurityHandler.unpack_encrypted_chunk (SecurityHandler.pack_encrypted_chunk iv ct tag)
      = .ok (iv, ct, tag) :=
  ⟨rfl, SecurityHandler.unpack_pack iv ct tag hiv htag hct⟩

/-- Witness for C4 at a ciphertext of 300 bytes, whose length encoding spans
two non-zero bytes. -/
theorem C4_frame_roundtrip_witness :
    SecurityHandler.unpack_encrypted_chunk
        (SecurityHandler.pack_encrypted_chunk [1] (List.replicate 300 7) [2, 3])
      = .ok ([1], List.replicate 300 7, [2, 3]) :=
  (C4_frame_roundtrip [1] [2, 3] (List.replicate 300 7)
    (by norm_num) (by norm_num) (by norm_num)).2

/-- C3: for every 32-byte key and every plaintext (the empty one included),
decrypting the (iv, ciphertext, tag) produced by encrypt_chunk gives back the
plaintext unchanged, and the ciphertext has exactly the plaintext's length —
no padding.  Holds for every keystream of the right length and every tag
function, hence for the AES-256-GCM instances. -/
theorem C3_encrypt_decrypt_roundtrip
    (ks : Bytes → Bytes → Nat → Bytes) (tagOf : Bytes → Bytes → Bytes → Bytes)
    (key iv plaintext : Bytes) (_hkey : key.length = 32)
    (hks : ∀ k i n, (ks k i n).length = n) :
    SecurityHandler.decrypt_chunk ks tagOf key iv
        (SecurityHandler.encrypt_chunk ks tagOf key iv plaintext).2.1
        (SecurityHandler.encrypt_chunk ks tagOf key iv plaintext).2.2
      = .ok plaintext
    ∧ (SecurityHandler.encrypt_chunk ks tagOf key iv plaintext).2.1.length
      = plaintext.length := by
  have hct : (xorBytes plaintext (ks key iv plaintext.length)).length = plaintext.length := by
    rw [xorBytes_length, hks]
    exact Nat.min_self _
  constructor
  · simp only [SecurityHandler.encrypt_chunk, SecurityHandler.decrypt_chunk,
      eq_self_iff_true, if_true]
    rw [hct, xorBytes_xorBytes_cancel _ _ (by rw [hks])]
  · simpa [SecurityHandler.encrypt_chunk] using hct

/-- Witness for C3 at the all-zero 32-byte key, a 12-byte IV and a concrete
3-byte plaintext, with a concrete keystream and tag function. -/
theorem C3_encrypt_decrypt_roundtrip_witness :
    SecurityHandler.decrypt_chunk (fun _ _ n => List.replicate n 0)
        (fun _ _ c => List.replicate 16 c.length) (List.replicate 32 0) (List.replicate 12 0)
        (SecurityHandler.encrypt_chunk (fun _ _ n => List.replicate n 0)
          (fun _ _ c => List.replicate 16 c.length) (List.replicate 32 0)
          (List.replicate 12 0) [10, 20, 30]).2.1
        (SecurityHandler.encrypt_chunk (fun _ _ n => List.replicate n 0)
          (fun _ _ c => List.replicate 16 c.length) (List.replicate 32 0)
          (List.replicate 12 0) [10, 20, 30]).2.2
      = .ok [10, 20, 30]
    ∧ (SecurityHandler.encrypt_chunk (fun _ _ n => List.replicate n 0)
        (fun _ _ c => List.replicate 16 c.length) (List.replicate 32 0)
        (List.replicate 12 0) [10, 20, 30]).2.1.length
      = ([10, 20, 30] : Bytes).length :=
  C3_encrypt_decrypt_roundtrip _ _ _ _ _ (by simp) (fun k i n => by simp)

/-- C7 counterexample: the empty key has length 0, not 32, and yet the
constructor succeeds, silently substituting the fresh random key — so the
claim that construction fails for EVERY key of length other than 32 is false
at the empty key. -/
theorem C7_counterexample :
    (([] : Bytes).length ≠ 32)
    ∧ SecurityHandler.init (some []) (List.replicate 32 0) = .ok (List.replicate 32 0) :=
  ⟨by decide, rfl⟩

/-- C7 (amended): construction fails with the key-length error for every
NON-EMPTY key whose length is not 32 (in particular 16- and 33-byte keys) and
succeeds for every 32-byte key; the empty key alone escapes the check, being
falsy in Python and replaced by the fresh random key before the check runs. -/
theorem C7_key_length_check (key fresh : Bytes) :
    (key ≠ [] → key.length ≠ 32 →
      SecurityHandler.init (some key) fresh = .error .invalidKeyLength)
    ∧ (key.length = 32 → SecurityHandler.init (some key) fresh = .ok key) := by
  constructor
  · intro hne hlen
    have he : key.isEmpty = false := by simpa [List.isEmpty_iff] using hne
    simp [SecurityHandler.init, he, hlen]
  · intro h32
    have he : key.isEmpty = false := by
      cases key with
      | nil => simp at h32
      | cons a as => rfl
    simp [SecurityHandler.init, he, h32]

/-- Witness for C7 (amended): a 16-byte key fails, a 32-byte key succeeds. -/
theorem C7_key_length_check_witness :
    SecurityHandler.init (some (List.replicate 16 1)) (List.replicate 32 0)
      = .error .invalidKeyLength
    ∧ SecurityHandler.init (some (List.replicate 32 5)) (List.replicate 32 0)
      = .ok (List.replicate 32 5) :=
  ⟨(C7_key_length_check (List.replicate 16 1) (List.replicate 32 0)).1
      (by simp) (by simp),
   (C7_key_length_check (List.replicate 32 5) (List.replicate 32 0)).2 (by simp)⟩

/-- C10: an empty caller-supplied key does not fail: it is treated exactly
like an absent key, a fresh random 32-byte key is substituted before the
length check, and the caller's empty key is never the key the handler
encrypts with (the resulting key is the 32-byte fresh one, not the empty
string). -/
theorem C10_empty_key_fallback (fresh : Bytes) (hfresh : fresh.length = 32) :
    SecurityHandler.init (some []) fresh = .ok fresh
    ∧ SecurityHandler.init (some []) fresh = SecurityHandler.init none fresh
    ∧ fresh ≠ ([] : Bytes) := by
  refine ⟨by simp [SecurityHandler.init, hfresh], rfl, ?_⟩
  intro h
  rw [h] at hfresh
  simp at hfresh

/-- Witness for C10 at a concrete fresh 32-byte key. -/
theorem C10_empty_key_fallback_witness :
    SecurityHandler.init (some []) (List.replicate 32 0) = .ok (List.replicate 32 0)
    ∧ SecurityHandler.init (some []) (List.replicate 32 0)
      = SecurityHandler.init none (List.replicate 32 0)
    ∧ List.replicate 32 0 ≠ ([] : Bytes) :=
  C10_empty_key_fallback (List.replicate 32 0) (by simp)

/-- C1: evaluation at the failing input.  The source decodes beacons with
pickle.loads, so the listener accepts payloads far beyond the fixed
{name: text, port: integer} schema: the pickled dictionary carrying only a
name field — not a valid beacon — is upserted into the peer table. -/
theorem C1_schema_violating_payload_upserted :
    DeviceDiscovery.validBeacon (.pyDict [("name", .pyStr "evil")]) = false
    ∧ DeviceDiscovery.listen_for_devices_step "10.0.0.9" 100 []
        "10.0.0.5" (.ok (.pyDict [("name", .pyStr "evil")]))
      = .nextIter [("10.0.0.5", .pyStr "evil", 100)] :=
  ⟨rfl, rfl⟩

/-- C5: evaluation at the failing inputs.  A beacon that unpickles to the
integer 5 makes the name subscript raise TypeError, and a truncated or empty
payload makes pickle.loads raise EOFError; neither is a PickleError or a
KeyError, so both fall into the generic exception handler, which breaks the
listener loop — the corrupt beacon terminates the listener activity. -/
theorem C5_corrupt_beacon_halts_listener :
    DeviceDiscovery.listen_for_devices_step "10.0.0.9" 100 [] "10.0.0.5" (.ok (.pyInt 5))
      = .halt []
    ∧ DeviceDiscovery.listen_for_devices_step "10.0.0.9" 100 [] "10.0.0.5" .otherDecodeError
      = .halt [] :=
  ⟨rfl, rfl⟩

namespace DeviceDiscovery

theorem dictGet_dictSet_ne {α : Type} (l : List (String × α)) (src k : String) (v : α)
    (h : k ≠ src) : dictGet (dictSet l src v) k = dictGet l k := by
  have hsk : (src == k) = false := beq_eq_false_iff_ne.mpr (Ne.symm h)
  induction l with
  | nil =>
    simp [dictSet, dictGet, List.find?, hsk]
  | cons e rest ih =>
    by_cases he : e.1 = src
    · have hek : (e.1 == k) = false := by rw [he]; exact hsk
      simp [dictSet, if_pos he, dictGet, List.find?, hsk, hek]
    · by_cases hek : e.1 = k
      · have hekt : (e.1 == k) = true := beq_iff_eq.mpr hek
        simp [dictSet, if_neg he, dictGet, List.find?, hekt]
      · have hekf : (e.1 == k) = false := beq_eq_false_iff_ne.mpr hek
        simp only [dictSet, if_neg he, dictGet, List.find?, hekf]
        simpa only [dictGet] using ih

theorem dictGet_filter_none {α : Type} (l : List (String × α)) (p : String × α → Bool)
    (k : String) (h : dictGet l k = none) : dictGet (l.filter p) k = none := by
  simp only [dictGet, Option.map_eq_none'] at h ⊢
  rw [List.find?_eq_none] at h ⊢
  intro e he
  exact h e (List.mem_of_mem_filter he)

theorem dictGet_foldl_dictDel_none {α : Type} (ips : List String)
    (l : List (String × α)) (k : String) (h : dictGet l k = none) :
    dictGet (ips.foldl (fun t ip => dictDel t ip) l) k = none := by
  induction ips generalizing l with
  | nil => exact h
  | cons ip ips ih =>
    exact ih _ (dictGet_filter_none _ _ _ h)

theorem dictGet_prune_none (now timeout : Rat) (l : PeerTable) (k : String)
    (h : dictGet l k = none) : dictGet (prune_old_devices now timeout l) k = none :=
  dictGet_foldl_dictDel_none _ _ _ h

/-- C8: the peer table never contains the local outbound address.  The
listener step refuses to insert a record for a datagram whose source equals
the local address, and no other operation inserts, so every reachable table
has no entry under the local address. -/
theorem C8_no_self_entry (localIp : String) (t : PeerTable)
    (h : Reachable localIp t) : dictGet t localIp = none := by
  induction h with
  | init => rfl
  | listen now src payload t ht ih =>
    cases payload with
    | ok v =>
      by_cases hsrc : src = localIp
      · simpa [listen_for_devices_step, hsrc, StepResult.devices] using ih
      · cases v with
        | pyStr s => simpa [listen_for_devices_step, hsrc, StepResult.devices] using ih
        | pyInt n => simpa [listen_for_devices_step, hsrc, StepResult.devices] using ih
        | pyDict entries =>
          cases hnm : dictGet entries "name" with
          | none => simpa [listen_for_devices_step, hsrc, hnm, StepResult.devices] using ih
          | some nm =>
            simp only [listen_for_devices_step, if_pos hsrc, hnm, StepResult.devices]
            rw [dictGet_dictSet_ne _ _ _ _ (Ne.symm hsrc)]
            exact ih
    | pickleError => simpa [listen_for_devices_step, StepResult.devices] using ih
    | otherDecodeError => simpa [listen_for_devices_step, StepResult.devices] using ih
  | prune now t ht ih => exact dictGet_prune_none _ _ _ _ ih

/-- Witness for C8: a concrete reachable table obtained by one listener step
on the empty table has no entry under the local address. -/
theorem C8_no_self_entry_witness :
    dictGet (listen_for_devices_step "10.0.0.9" 100 [] "10.0.0.5"
        (.ok (.pyDict [("name", .pyStr "dev")]))).devices "10.0.0.9" = none :=
  C8_no_self_entry "10.0.0.9" _
    (Reachable.listen 100 "10.0.0.5" (.ok (.pyDict [("name", .pyStr "dev")])) [] Reachable.init)

end DeviceDiscovery

namespace DeviceDiscovery

theorem foldl_dictDel_eq_filter {α : Type} (ips : List String) (l : List (String × α)) :
    ips.foldl (fun t ip => dictDel t ip) l
      = l.filter (fun e => !(ips.contains e.1)) := by
  induction ips generalizing l with
  | nil => simp
  | cons ip ips ih =>
    simp only [List.foldl_cons]
    rw [ih]
    simp only [dictDel, List.filter_filter]
    refine List.filter_congr (fun e _ => ?_)
    by_cases h₁ : e.1 = ip <;> by_cases h₂ : e.1 ∈ ips <;> simp [h₁, h₂, List.mem_cons]

theorem prune_eq_filter (now timeout : Rat) (l : PeerTable)
    (hnodup : (l.map Prod.fst).Nodup) :
    prune_old_devices now timeout l
      = l.filter (fun e => !decide (now - e.2.2 > timeout)) := by
  unfold prune_old_devices
  rw [foldl_dictDel_eq_filter]
  refine List.filter_congr (fun e he => ?_)
  congr 1
  cases hp : decide (now - e.2.2 > timeout) with
  | true =>
    have hef : e ∈ l.filter (fun x => decide (now - x.2.2 > timeout)) :=
      List.mem_filter.mpr ⟨he, hp⟩
    have hm : e.1 ∈ (l.filter (fun x => decide (now - x.2.2 > timeout))).map
        (fun x => x.1) := List.mem_map.mpr ⟨e, hef, rfl⟩
    simpa using hm
  | false =>
    rw [Bool.eq_false_iff]
    intro hcont
    have hmem : e.1 ∈ (l.filter (fun x => decide (now - x.2.2 > timeout))).map
        (fun x => x.1) := by simpa using hcont
    obtain ⟨x, hxf, hx1⟩ := List.mem_map.mp hmem
    have hxl := List.mem_of_mem_filter hxf
    have hxp := List.of_mem_filter hxf
    have hxe : x = e := List.inj_on_of_nodup_map hnodup hxl he hx1
    rw [hxe, hp] at hxp
    exact Bool.false_ne_true hxp

theorem dictGet_filter_some {α : Type} (l : List (String × α)) (p : String × α → Bool)
    (k : String) (v : α) (h : dictGet l k = some v) (hp : p (k, v) = true) :
    dictGet (l.filter p) k = some v := by
  induction l with
  | nil => simp [dictGet] at h
  | cons e es ih =>
    by_cases hek : (e.1 == k) = true
    · have hk : e.1 = k := beq_iff_eq.mp hek
      have hfpos : ∀ l₂ : List (String × α),
          List.find? (fun x => x.1 == k) (e :: l₂) = some e :=
        fun l₂ => List.find?_cons_of_pos l₂ hek
      have hev : e.2 = v := by
        simp only [dictGet, hfpos] at h
        simpa using h
      have he : e = (k, v) := by rw [← hk, ← hev]
      have hpe : p e = true := by rw [he]; exact hp
      simp only [List.filter_cons, hpe, if_pos]
      simp only [dictGet, hfpos]
      simp [hev]
    · have hfneg : ∀ l₂ : List (String × α),
          List.find? (fun x => x.1 == k) (e :: l₂) = List.find? (fun x => x.1 == k) l₂ :=
        fun l₂ => List.find?_cons_of_neg l₂ (by simp [hek])
      have h₂ : dictGet es k = some v := by
        simp only [dictGet, hfneg] at h
        exact h
      cases hpe : p e with
      | true =>
        simp only [List.filter_cons, hpe, if_pos]
        simp only [dictGet, hfneg]
        simpa only [dictGet] using ih h₂
      | false =>
        simp only [List.filter_cons, hpe]
        simpa using ih h₂

theorem dictGet_filter_drop {α : Type} (l : List (String × α)) (p : String × α → Bool)
    (k : String) (v : α) (hnodup : (l.map Prod.fst).Nodup)
    (h : dictGet l k = some v) (hp : p (k, v) = false) :
    dictGet (l.filter p) k = none := by
  obtain ⟨e₀, hfind, he₀v⟩ := Option.map_eq_some'.mp h
  have hbeq₀ := List.find?_some hfind
  have he₀k : e₀.1 = k := beq_iff_eq.mp (by simpa using hbeq₀)
  have he₀l : e₀ ∈ l := List.mem_of_find?_eq_some hfind
  have he₀ : e₀ = (k, v) := by rw [← he₀k, ← he₀v]
  simp only [dictGet, Option.map_eq_none']
  rw [List.find?_eq_none]
  intro e hef hbeq
  have hel := List.mem_of_mem_filter hef
  have hpe := List.of_mem_filter hef
  have hek : e.1 = k := beq_iff_eq.mp (by simpa using hbeq)
  have : e = e₀ := List.inj_on_of_nodup_map hnodup hel he₀l (by rw [hek, he₀k])
  rw [this, he₀, hp] at hpe
  exact Bool.false_ne_true hpe

end DeviceDiscovery

namespace DeviceDiscovery

/-- C9: with the default 30-second staleness window, a record last seen at
time T is still listed (and its data untouched by pruning) when queried at or
before T + 29, and is pruned and unlisted when queried at or after T + 31;
pruning keeps exactly the entries at most 30 seconds old, unchanged, and
invents no entries. -/
theorem C9_staleness_window (t : PeerTable) (ip : String) (nm : PyVal) (T q : Rat)
    (hnodup : (t.map Prod.fst).Nodup) (hget : dictGet t ip = some (nm, T)) :
    (q ≤ T + 29 →
      dictGet (prune_old_devices q 30 t) ip = some (nm, T)
      ∧ (ip, nm) ∈ (get_available_devices q t).1)
    ∧ (T + 31 ≤ q →
      dictGet (prune_old_devices q 30 t) ip = none
      ∧ ∀ nm₂, (ip, nm₂) ∉ (get_available_devices q t).1)
    ∧ (∀ e ∈ t, (e ∈ prune_old_devices q 30 t ↔ q - e.2.2 ≤ 30))
    ∧ (∀ e ∈ prune_old_devices q 30 t, e ∈ t) := by
  have hpr := prune_eq_filter q 30 t hnodup
  refine ⟨?_, ?_, ?_, ?_⟩
  · intro hq
    have hkeep : (fun e : String × PyVal × Rat => !decide (q - e.2.2 > 30))
        (ip, (nm, T)) = true := by
      have : ¬ (q - T > 30) := by linarith
      simpa using this
    have h₁ : dictGet (prune_old_devices q 30 t) ip = some (nm, T) := by
      rw [hpr]
      exact dictGet_filter_some t _ ip (nm, T) hget hkeep
    refine ⟨h₁, ?_⟩
    obtain ⟨e₀, hfind, he₀v⟩ := Option.map_eq_some'.mp h₁
    have he₀m := List.mem_of_find?_eq_some hfind
    have hbeq := List.find?_some hfind
    have he₀k : e₀.1 = ip := beq_iff_eq.mp (by simpa using hbeq)
    simp only [get_available_devices]
    exact List.mem_map.mpr ⟨e₀, he₀m, by rw [he₀k, he₀v]⟩
  · intro hq
    have hdropb : (fun e : String × PyVal × Rat => !decide (q - e.2.2 > 30))
        (ip, (nm, T)) = false := by
      have : q - T > 30 := by linarith
      simpa using this
    have h₀ : dictGet (prune_old_devices q 30 t) ip = none := by
      rw [hpr]
      exact dictGet_filter_drop t _ ip (nm, T) hnodup hget hdropb
    refine ⟨h₀, ?_⟩
    intro nm₂ hmem
    simp only [get_available_devices] at hmem
    obtain ⟨e₀, he₀m, he₀eq⟩ := List.mem_map.mp hmem
    have h₀n := h₀
    simp only [dictGet, Option.map_eq_none'] at h₀n
    rw [List.find?_eq_none] at h₀n
    have hk : e₀.1 = ip := (Prod.ext_iff.mp he₀eq).1
    exact h₀n e₀ he₀m (by simpa using beq_iff_eq.mpr hk)
  · intro e he
    rw [hpr, List.mem_filter]
    constructor
    · rintro ⟨-, hp⟩
      simp only [Bool.not_eq_true', decide_eq_false_iff_not, not_lt] at hp
      exact hp
    · intro hle
      refine ⟨he, ?_⟩
      have : ¬ (q - e.2.2 > 30) := by linarith
      simpa using this
  · intro e he
    rw [hpr] at he
    exact List.mem_of_mem_filter he

/-- Witness for C9 at a one-entry table last seen at time 100, queried at 129
(fresh) and at 131 (stale). -/
theorem C9_staleness_window_witness :
    (dictGet (prune_old_devices 129 30 [("10.0.0.5", .pyStr "a", 100)]) "10.0.0.5"
      = some (.pyStr "a", 100)
     ∧ ("10.0.0.5", PyVal.pyStr "a")
        ∈ (get_available_devices 129 [("10.0.0.5", .pyStr "a", 100)]).1)
    ∧ (dictGet (prune_old_devices 131 30 [("10.0.0.5", .pyStr "a", 100)]) "10.0.0.5"
      = none
     ∧ ∀ nm₂, ("10.0.0.5", nm₂)
        ∉ (get_available_devices 131 [("10.0.0.5", .pyStr "a", 100)]).1) :=
  ⟨(C9_staleness_window [("10.0.0.5", .pyStr "a", 100)] "10.0.0.5" (.pyStr "a") 100 129
      (by simp) rfl).1 (by norm_num),
   (C9_staleness_window [("10.0.0.5", .pyStr "a", 100)] "10.0.0.5" (.pyStr "a") 100 131
      (by simp) rfl).2.1 (by norm_num)⟩

end DeviceDiscovery

namespace SecurityHandler

theorem decrypt_encrypt (ks : Bytes → Bytes → Nat → Bytes)
    (tagOf : Bytes → Bytes → Bytes → Bytes) (key iv c : Bytes)
    (hks : ∀ k i n, (ks k i n).length = n) :
    decrypt_chunk ks tagOf key iv (encrypt_chunk ks tagOf key iv c).2.1
        (encrypt_chunk ks tagOf key iv c).2.2 = .ok c := by
  have hct : (xorBytes c (ks key iv c.length)).length = c.length := by
    rw [xorBytes_length, hks]
    exact Nat.min_self _
  simp only [encrypt_chunk, decrypt_chunk, eq_self_iff_true, if_true]
  rw [hct, xorBytes_xorBytes_cancel _ _ (by rw [hks])]

theorem encrypt_ciphertext_length (ks : Bytes → Bytes → Nat → Bytes)
    (tagOf : Bytes → Bytes → Bytes → Bytes) (key iv c : Bytes)
    (hks : ∀ k i n, (ks k i n).length = n) :
    (encrypt_chunk ks tagOf key iv c).2.1.length = c.length := by
  simp only [encrypt_chunk]
  rw [xorBytes_length, hks]
  exact Nat.min_self _

theorem decrypt_bad_tag (ks : Bytes → Bytes → Nat → Bytes)
    (tagOf : Bytes → Bytes → Bytes → Bytes) (key iv ct tag : Bytes)
    (hbad : tagOf key iv ct ≠ tag) :
    decrypt_chunk ks tagOf key iv ct tag = .error .authenticationFailure := by
  simp [decrypt_chunk, hbad]

end SecurityHandler

namespace FileReceiver

theorem receive_exact_front (a b : Bytes) :
    receive_exact a.length (a ++ b) = some (a, b) := by
  have h : a.length ≤ (a ++ b).length := by
    simp [List.length_append]
  simp [receive_exact, h, List.take_left, List.drop_left]

theorem receive_exact_of_length (n : Nat) (a b : Bytes) (h : a.length = n) :
    receive_exact n (a ++ b) = some (a, b) := by
  subst h
  exact receive_exact_front a b

theorem receive_loop_done (ks : Bytes → Bytes → Nat → Bytes)
    (tagOf : Bytes → Bytes → Bytes → Bytes) (key : Bytes) (enc : Bool)
    (fileSize : Nat) (sp : Bytes) (fuel : Nat) (stream : Bytes) (sched : List Nat)
    (total : Nat) (written : Bytes) (h : ¬ total < fileSize) :
    receive_loop ks tagOf key enc fileSize sp (fuel + 1) stream sched total written
      = .success sp written := by
  simp only [receive_loop, if_neg h]

theorem receive_loop_frame (ks : Bytes → Bytes → Nat → Bytes)
    (tagOf : Bytes → Bytes → Bytes → Bytes) (key : Bytes)
    (fileSize : Nat) (sp : Bytes) (fuel : Nat) (rest : Bytes) (sched : List Nat)
    (total : Nat) (written : Bytes) (iv ct tag : Bytes)
    (h : total < fileSize) (hiv : iv.length < 2 ^ 32)
    (htg : tag.length < 2 ^ 32) (hct : ct.length < 2 ^ 32) :
    receive_loop ks tagOf key true fileSize sp (fuel + 1)
        (SecurityHandler.pack_encrypted_chunk iv ct tag ++ rest) sched total written
      = match SecurityHandler.decrypt_chunk ks tagOf key iv ct tag with
        | .error _ => .failure written
        | .ok pt => receive_loop ks tagOf key true fileSize sp fuel rest sched
            (total + pt.length) (written ++ pt) := by
  have hstream : SecurityHandler.pack_encrypted_chunk iv ct tag ++ rest
      = u32be iv.length
        ++ (iv ++ (u32be tag.length ++ (tag ++ (u32be ct.length ++ (ct ++ rest))))) := by
    simp [SecurityHandler.pack_encrypted_chunk, List.append_assoc]
  have e₁ := receive_exact_of_length 4
    (u32be iv.length) (iv ++ (u32be tag.length ++ (tag ++ (u32be ct.length ++ (ct ++ rest)))))
    (u32be_length _)
  have e₂ := receive_exact_front iv (u32be tag.length ++ (tag ++ (u32be ct.length ++ (ct ++ rest))))
  have e₃ := receive_exact_of_length 4
    (u32be tag.length) (tag ++ (u32be ct.length ++ (ct ++ rest))) (u32be_length _)
  have e₄ := receive_exact_front tag (u32be ct.length ++ (ct ++ rest))
  have e₅ := receive_exact_of_length 4 (u32be ct.length) (ct ++ rest) (u32be_length _)
  have e₆ := receive_exact_front ct rest
  rw [hstream]
  simp only [receive_loop, if_pos h, e₁, beDecode_u32be _ hiv, e₂, e₃,
    beDecode_u32be _ htg, e₄, e₅, beDecode_u32be _ hct, e₆,
    eq_self_iff_true, if_true]

end FileReceiver

namespace FileReceiver

theorem receive_loop_badframe (ks : Bytes → Bytes → Nat → Bytes)
    (tagOf : Bytes → Bytes → Bytes → Bytes) (key : Bytes)
    (fileSize : Nat) (sp : Bytes) (fuel : Nat) (rest : Bytes) (sched : List Nat)
    (total : Nat) (written : Bytes) (iv ct tag : Bytes)
    (h : total < fileSize) (hiv : iv.length < 2 ^ 32)
    (htg : tag.length < 2 ^ 32) (hct : ct.length < 2 ^ 32)
    (hbad : tagOf key iv ct ≠ tag) :
    receive_loop ks tagOf key true fileSize sp (fuel + 1)
        (SecurityHandler.pack_encrypted_chunk iv ct tag ++ rest) sched total written
      = .failure written := by
  rw [receive_loop_frame ks tagOf key fileSize sp fuel rest sched total written iv ct tag
    h hiv htg hct]
  rw [SecurityHandler.decrypt_bad_tag ks tagOf key iv ct tag hbad]

theorem send_chunk_pos (ks : Bytes → Bytes → Nat → Bytes)
    (tagOf : Bytes → Bytes → Bytes → Bytes) (key iv c : Bytes) :
    1 ≤ (FileSender.send_chunk ks tagOf key iv c).length := by
  simp only [FileSender.send_chunk, SecurityHandler.pack_encrypted_chunk,
    List.length_append, u32be_length]
  omega

theorem send_chunks_length_ge (ks : Bytes → Bytes → Nat → Bytes)
    (tagOf : Bytes → Bytes → Bytes → Bytes) (key : Bytes) :
    ∀ (ivs chunks : List Bytes),
      min ivs.length chunks.length
        ≤ (FileSender.send_chunks ks tagOf key ivs chunks).length := by
  intro ivs
  induction ivs with
  | nil => intro chunks; simp [FileSender.send_chunks]
  | cons iv ivs ih =>
    intro chunks
    cases chunks with
    | nil => simp [FileSender.send_chunks]
    | cons c cs =>
      have h₁ := send_chunk_pos ks tagOf key iv c
      have h₂ := ih cs
      simp only [FileSender.send_chunks, List.zip_cons_cons, List.map_cons,
        List.flatten_cons, List.length_append, List.length_cons] at h₂ ⊢
      omega

theorem receive_loop_send_chunks (ks : Bytes → Bytes → Nat → Bytes)
    (tagOf : Bytes → Bytes → Bytes → Bytes) (key : Bytes)
    (hks : ∀ k i n, (ks k i n).length = n)
    (htag : ∀ k i c, (tagOf k i c).length = 16)
    (fileSize : Nat) (sp : Bytes) (sched : List Nat) :
    ∀ (ivs chunks : List Bytes), ivs.length = chunks.length →
      (∀ iv ∈ ivs, iv.length < 2 ^ 32) →
      (∀ c ∈ chunks, c.length < 2 ^ 32) →
      ∀ (fuel : Nat) (tail : Bytes) (total : Nat) (written : Bytes),
        total + (chunks.map List.length).sum < fileSize →
        receive_loop ks tagOf key true fileSize sp (fuel + ivs.length)
            (FileSender.send_chunks ks tagOf key ivs chunks ++ tail) sched total written
          = receive_loop ks tagOf key true fileSize sp fuel tail sched
              (total + (chunks.map List.length).sum) (written ++ chunks.flatten) := by
  intro ivs
  induction ivs with
  | nil =>
    intro chunks hlen _ _ fuel tail total written _
    simp only [List.length_nil] at hlen
    have : chunks = [] := List.length_eq_zero.mp hlen.symm
    subst this
    simp [FileSender.send_chunks]
  | cons iv ivs ih =>
    intro chunks hlen hivb hctb fuel tail total written hsum
    cases chunks with
    | nil => simp at hlen
    | cons c cs =>
      have hcl : c.length < 2 ^ 32 := hctb c (List.mem_cons_self c cs)
      have hctlen : (SecurityHandler.encrypt_chunk ks tagOf key iv c).2.1.length = c.length :=
        SecurityHandler.encrypt_ciphertext_length ks tagOf key iv c hks
      have hsc : FileSender.send_chunks ks tagOf key (iv :: ivs) (c :: cs) ++ tail
          = SecurityHandler.pack_encrypted_chunk iv
              (SecurityHandler.encrypt_chunk ks tagOf key iv c).2.1
              (SecurityHandler.encrypt_chunk ks tagOf key iv c).2.2
            ++ (FileSender.send_chunks ks tagOf key ivs cs ++ tail) := by
        simp [FileSender.send_chunks, FileSender.send_chunk, List.append_assoc,
          SecurityHandler.encrypt_chunk]
      have hfuel : fuel + (iv :: ivs).length = (fuel + ivs.length) + 1 := by
        simp [List.length_cons]
        omega
      have hlt : total < fileSize := by
        simp only [List.map_cons, List.sum_cons] at hsum
        omega
      rw [hsc, hfuel]
      rw [receive_loop_frame ks tagOf key fileSize sp (fuel + ivs.length)
        (FileSender.send_chunks ks tagOf key ivs cs ++ tail) sched total written
        iv (SecurityHandler.encrypt_chunk ks tagOf key iv c).2.1
        (SecurityHandler.encrypt_chunk ks tagOf key iv c).2.2
        hlt (hivb iv (List.mem_cons_self iv ivs))
        (by
          have : (SecurityHandler.encrypt_chunk ks tagOf key iv c).2.2
              = tagOf key iv (SecurityHandler.encrypt_chunk ks tagOf key iv c).2.1 := rfl
          rw [this, htag]
          norm_num)
        (by rw [hctlen]; exact hcl)]
      rw [SecurityHandler.decrypt_encrypt ks tagOf key iv c hks]
      simp only []
      have ihx := ih cs (by simpa using hlen)
        (fun x hx => hivb x (List.mem_cons_of_mem iv hx))
        (fun x hx => hctb x (List.mem_cons_of_mem c hx))
        fuel tail (total + c.length) (written ++ c)
        (by simp only [List.map_cons, List.sum_cons] at hsum; omega)
      rw [ihx]
      simp only [List.map_cons, List.sum_cons, List.flatten_cons, List.append_assoc]
      congr 1
      omega

end FileReceiver

namespace FileReceiver

theorem receive_file_eq_loop (ks : Bytes → Bytes → Nat → Bytes)
    (tagOf : Bytes → Bytes → Bytes → Bytes) (key : Bytes) (sched : List Nat)
    (fname : Bytes) (fileSize : Nat) (enc : Bool) (body : Bytes)
    (hfname : fname.length < 2 ^ 32) (hfs : fileSize < 2 ^ 64) :
    receive_file ks tagOf key sched (FileSender.send_metadata fname fileSize enc ++ body)
      = receive_loop ks tagOf key enc fileSize fname (body.length + 1) body sched 0 [] := by
  have hstream : FileSender.send_metadata fname fileSize enc ++ body
      = u32be fname.length
        ++ (fname ++ (u64be fileSize ++ (u32be (if enc then 1 else 0) ++ body))) := by
    simp [FileSender.send_metadata, List.append_assoc]
  have e₁ := receive_exact_of_length 4 (u32be fname.length)
    (fname ++ (u64be fileSize ++ (u32be (if enc then 1 else 0) ++ body))) (u32be_length _)
  have e₂ := receive_exact_front fname
    (u64be fileSize ++ (u32be (if enc then 1 else 0) ++ body))
  have e₃ := receive_exact_of_length 8 (u64be fileSize)
    (u32be (if enc then 1 else 0) ++ body) (u64be_length _)
  have e₄ := receive_exact_of_length 4 (u32be (if enc then 1 else 0)) body (u32be_length _)
  have ed₃ : beDecode (u32be (if enc then 1 else 0)) = (if enc then 1 else 0) :=
    beDecode_u32be _ (by cases enc <;> norm_num)
  have hflag : decide ((if enc then (1 : Nat) else 0) ≠ 0) = enc := by
    cases enc <;> simp
  rw [hstream]
  simp only [receive_file, e₁, beDecode_u32be _ hfname, e₂, e₃, beDecode_u64be _ hfs,
    e₄, ed₃, hflag]

end FileReceiver

/-- C2: whenever the tag does not verify, decrypt_chunk fails with the
authentication error and yields no plaintext; and during an encrypted
receive, a stream carrying any number of well-formed chunks followed by a
chunk whose tag fails verification makes receive_file fail with exactly the
previously verified chunks' plaintext bytes written — no byte of the bad
chunk reaches the file.  Holds for every keystream of the right length and
every 16-byte tag function, hence for the AES-256-GCM instances. -/
theorem C2_auth_failure_stops_receive (ks : Bytes → Bytes → Nat → Bytes)
    (tagOf : Bytes → Bytes → Bytes → Bytes) (key : Bytes)
    (hks : ∀ k i n, (ks k i n).length = n)
    (htag : ∀ k i c, (tagOf k i c).length = 16)
    (fname : Bytes) (fileSize : Nat) (ivs chunks : List Bytes)
    (ivB ctB tagB rest : Bytes) (sched : List Nat)
    (hlen : ivs.length = chunks.length)
    (hivb : ∀ iv ∈ ivs, iv.length < 2 ^ 32)
    (hctb : ∀ c ∈ chunks, c.length < 2 ^ 32)
    (hsum : (chunks.map List.length).sum < fileSize)
    (hfname : fname.length < 2 ^ 32) (hfs : fileSize < 2 ^ 64)
    (hivB : ivB.length < 2 ^ 32) (htagB : tagB.length < 2 ^ 32) (hctB : ctB.length < 2 ^ 32)
    (hbad : tagOf key ivB ctB ≠ tagB) :
    SecurityHandler.decrypt_chunk ks tagOf key ivB ctB tagB
      = .error .authenticationFailure
    ∧ FileReceiver.receive_file ks tagOf key sched
        (FileSender.send_metadata fname fileSize true
          ++ (FileSender.send_chunks ks tagOf key ivs chunks
              ++ (SecurityHandler.pack_encrypted_chunk ivB ctB tagB ++ rest)))
      = .failure chunks.flatten := by
  refine ⟨SecurityHandler.decrypt_bad_tag ks tagOf key ivB ctB tagB hbad, ?_⟩
  set body := FileSender.send_chunks ks tagOf key ivs chunks
    ++ (SecurityHandler.pack_encrypted_chunk ivB ctB tagB ++ rest) with hbody
  rw [FileReceiver.receive_file_eq_loop ks tagOf key sched fname fileSize true body
    hfname hfs]
  have hblen : ivs.length ≤ body.length := by
    have h₁ := FileReceiver.send_chunks_length_ge ks tagOf key ivs chunks
    rw [hlen, Nat.min_self] at h₁
    rw [hbody]
    simp only [List.length_append]
    omega
  obtain ⟨k, hk, hk1⟩ : ∃ k, body.length + 1 = k + ivs.length ∧ 1 ≤ k :=
    ⟨body.length + 1 - ivs.length, by omega, by omega⟩
  rw [hk, hbody]
  rw [FileReceiver.receive_loop_send_chunks ks tagOf key hks htag fileSize fname sched
    ivs chunks hlen hivb hctb k
    (SecurityHandler.pack_encrypted_chunk ivB ctB tagB ++ rest) 0 [] (by omega)]
  obtain ⟨k₂, rfl⟩ : ∃ k₂, k = k₂ + 1 := ⟨k - 1, by omega⟩
  rw [Nat.zero_add, List.nil_append]
  rw [FileReceiver.receive_loop_badframe ks tagOf key fileSize fname k₂ rest sched
    ((chunks.map List.length).sum) chunks.flatten ivB ctB tagB
    (by omega) hivB htagB hctB hbad]

/-- Witness for C2: one good 2-byte chunk, then a chunk whose tag does not
verify; the receive fails with only the first chunk's bytes written. -/
theorem C2_auth_failure_stops_receive_witness :
    SecurityHandler.decrypt_chunk (fun _ _ n => List.replicate n 0)
        (fun _ _ c => List.replicate 16 c.length) (List.replicate 32 0)
        (List.replicate 12 0) [9] [0]
      = .error .authenticationFailure
    ∧ FileReceiver.receive_file (fun _ _ n => List.replicate n 0)
        (fun _ _ c => List.replicate 16 c.length) (List.replicate 32 0) []
        (FileSender.send_metadata [102] 10 true
          ++ (FileSender.send_chunks (fun _ _ n => List.replicate n 0)
                (fun _ _ c => List.replicate 16 c.length) (List.replicate 32 0)
                [List.replicate 12 0] [[1, 2]]
              ++ (SecurityHandler.pack_encrypted_chunk (List.replicate 12 0) [9] [0] ++ [])))
      = .failure [1, 2] :=
  C2_auth_failure_stops_receive (fun _ _ n => List.replicate n 0)
    (fun _ _ c => List.replicate 16 c.length) (List.replicate 32 0)
    (fun k i n => by simp) (fun k i c => by simp)
    [102] 10 [List.replicate 12 0] [[1, 2]] (List.replicate 12 0) [9] [0] [] []
    rfl
    (by intro iv hiv; rw [List.mem_singleton] at hiv; subst hiv; norm_num)
    (by intro c hc; rw [List.mem_singleton] at hc; subst hc; norm_num)
    (by norm_num) (by norm_num) (by norm_num) (by norm_num) (by norm_num) (by norm_num)
    (by decide)

namespace FileReceiver

theorem receive_loop_success_ge (ks : Bytes → Bytes → Nat → Bytes)
    (tagOf : Bytes → Bytes → Bytes → Bytes) (key : Bytes) (enc : Bool)
    (fileSize : Nat) (sp : Bytes) :
    ∀ (fuel : Nat) (stream : Bytes) (sched : List Nat) (total : Nat) (written : Bytes)
      (p w : Bytes),
      total = written.length →
      receive_loop ks tagOf key enc fileSize sp fuel stream sched total written
        = .success p w →
      fileSize ≤ w.length := by
  intro fuel
  induction fuel with
  | zero =>
    intro stream sched total written p w _ hr
    simp [receive_loop] at hr
  | succ fuel ih =>
    intro stream sched total written p w hinv hr
    by_cases hlt : total < fileSize
    · cases enc with
      | false =>
        simp only [receive_loop, if_pos hlt, Bool.false_eq_true, if_false] at hr
        refine ih _ _ _ _ _ _ ?_ hr
        simp [hinv]
      | true =>
        simp only [receive_loop, if_pos hlt, eq_self_iff_true, if_true] at hr
        cases h₁ : receive_exact 4 stream with
        | none => rw [h₁] at hr; simp at hr
        | some pr₁ =>
          obtain ⟨lenB₁, s₁⟩ := pr₁
          rw [h₁] at hr
          simp only [] at hr
          cases h₂ : receive_exact (beDecode lenB₁) s₁ with
          | none => rw [h₂] at hr; simp at hr
          | some pr₂ =>
            obtain ⟨iv, s₂⟩ := pr₂
            rw [h₂] at hr
            simp only [] at hr
            cases h₃ : receive_exact 4 s₂ with
            | none => rw [h₃] at hr; simp at hr
            | some pr₃ =>
              obtain ⟨lenB₂, s₃⟩ := pr₃
              rw [h₃] at hr
              simp only [] at hr
              cases h₄ : receive_exact (beDecode lenB₂) s₃ with
              | none => rw [h₄] at hr; simp at hr
              | some pr₄ =>
                obtain ⟨tag, s₄⟩ := pr₄
                rw [h₄] at hr
                simp only [] at hr
                cases h₅ : receive_exact 4 s₄ with
                | none => rw [h₅] at hr; simp at hr
                | some pr₅ =>
                  obtain ⟨lenB₃, s₅⟩ := pr₅
                  rw [h₅] at hr
                  simp only [] at hr
                  cases h₆ : receive_exact (beDecode lenB₃) s₅ with
                  | none => rw [h₆] at hr; simp at hr
                  | some pr₆ =>
                    obtain ⟨ct, s₆⟩ := pr₆
                    rw [h₆] at hr
                    simp only [] at hr
                    cases hd : SecurityHandler.decrypt_chunk ks tagOf key iv ct tag with
                    | error e => rw [hd] at hr; simp at hr
                    | ok pt =>
                      rw [hd] at hr
                      simp only [] at hr
                      refine ih _ _ _ _ _ _ ?_ hr
                      simp [hinv]
    · simp only [receive_loop, if_neg hlt, RecvOutcome.success.injEq] at hr
      obtain ⟨-, rfl⟩ := hr
      omega

end FileReceiver

/-- C6 (amended): whenever receive_file returns success, the total number of
plaintext bytes written to the output file is AT LEAST the fileSize value of
the transfer header — the chunk loop never stops short — on both the
encrypted and the unencrypted path; it can exceed fileSize when the bytes
yielded by a read overshoot the remaining count, since the loop only checks
the running total at iteration boundaries. -/
theorem C6_success_written_ge_fileSize (ks : Bytes → Bytes → Nat → Bytes)
    (tagOf : Bytes → Bytes → Bytes → Bytes) (key : Bytes) (sched : List Nat)
    (fname : Bytes) (fileSize : Nat) (enc : Bool) (body : Bytes) (p w : Bytes)
    (hfname : fname.length < 2 ^ 32) (hfs : fileSize < 2 ^ 64)
    (hsucc : FileReceiver.receive_file ks tagOf key sched
        (FileSender.send_metadata fname fileSize enc ++ body) = .success p w) :
    fileSize ≤ w.length := by
  rw [FileReceiver.receive_file_eq_loop ks tagOf key sched fname fileSize enc body
    hfname hfs] at hsucc
  exact FileReceiver.receive_loop_success_ge ks tagOf key enc fileSize fname
    (body.length + 1) body sched 0 [] p w rfl hsucc

/-- C6 counterexample: an unencrypted transfer with fileSize 1 whose single
recv yields 2 bytes returns success having written 2 bytes — more than
fileSize — so the claim that success implies exactly fileSize bytes written
is false at this input. -/
theorem C6_counterexample :
    FileReceiver.receive_file (fun _ _ n => List.replicate n 0)
        (fun _ _ c => List.replicate 16 c.length) (List.replicate 32 0) [4096]
        (FileSender.send_metadata [102] 1 false ++ [65, 66])
      = .success [102] [65, 66]
    ∧ ([65, 66] : Bytes).length ≠ 1 := by
  constructor
  · rfl
  · decide

/-- Witness for C6 (amended) on a successful unencrypted run: fileSize 2,
written [65, 66]. -/
theorem C6_success_written_ge_fileSize_witness :
    (2 : Nat) ≤ ([65, 66] : Bytes).length :=
  C6_success_written_ge_fileSize (fun _ _ n => List.replicate n 0)
    (fun _ _ c => List.replicate 16 c.length) (List.replicate 32 0) [4096]
    [102] 2 false [65, 66] [102] [65, 66] (by norm_num) (by norm_num) rfl
